import Mathlib

/-!
Verification development for the TicTacToe repository.

The Python sources are shallowly embedded:
* `src/tictactoe/game_engine.py` (`TicTacToeGame`): `GameState`, `makeMove`,
  `checkWin`, `checkLine` (as `walkCount`), `getValidMoves` (as `validMoves`).
* `src/tictactoe/players/minimax_player.py` (`MinimaxPlayer`): `hasWon`,
  `checkWinner`, `evaluateWindow`, `evaluatePosition`, `abSearch` (the
  alpha-beta `_minimax`) and `minimaxGetMove` (`get_move`).
* Boards are functions from integer coordinates to cell values (-1, 0, 1);
  the Python floats -inf/+inf used as search sentinels become `EInt`.
-/

namespace TTT

/-- Extended integers with explicit bottom and top elements, modelling the
Python float sentinels `-float('inf')` / `float('inf')` used by the minimax
search; all genuine scores are integers. -/
inductive EInt : Type
  | bot
  | I (n : ℤ)
  | top
deriving DecidableEq

namespace EInt

/-- Boolean order on `EInt`: `bot` below every element, `top` above. -/
def leb : EInt → EInt → Bool
  | .bot, _ => true
  | _, .top => true
  | .I a, .I b => a ≤ b
  | .top, .bot => false
  | .top, .I _ => false
  | .I _, .bot => false

theorem leb_refl (a : EInt) : leb a a = true := by
  cases a <;> simp [leb]

theorem leb_trans : ∀ a b c : EInt, leb a b = true → leb b c = true → leb a c = true := by
  intro a b c
  cases a <;> cases b <;> cases c <;> simp [leb] <;> omega

theorem leb_antisymm : ∀ a b : EInt, leb a b = true → leb b a = true → a = b := by
  intro a b
  cases a <;> cases b <;> simp [leb] <;> omega

theorem leb_total : ∀ a b : EInt, leb a b = true ∨ leb b a = true := by
  intro a b
  cases a <;> cases b <;> simp [leb] <;> omega

instance : LinearOrder EInt where
  le a b := leb a b = true
  le_refl := leb_refl
  le_trans := leb_trans
  le_antisymm := leb_antisymm
  le_total := leb_total
  decidableLE a b := inferInstanceAs (Decidable (leb a b = true))
  decidableEq := inferInstance

instance (a b : EInt) : Decidable (a ≤ b) :=
  inferInstanceAs (Decidable (leb a b = true))

theorem le_iff_leb {a b : EInt} : a ≤ b ↔ leb a b = true := Iff.rfl

theorem bot_le' (a : EInt) : EInt.bot ≤ a := by
  rw [le_iff_leb]; cases a <;> simp [leb]

theorem le_top' (a : EInt) : a ≤ EInt.top := by
  rw [le_iff_leb]; cases a <;> simp [leb]

theorem I_le_I {a b : ℤ} : (EInt.I a ≤ EInt.I b) ↔ a ≤ b := by
  rw [le_iff_leb]; simp [leb]

theorem le_bot_iff' {a : EInt} : a ≤ EInt.bot ↔ a = EInt.bot := by
  rw [le_iff_leb]; cases a <;> simp [leb]

theorem top_le_iff' {a : EInt} : EInt.top ≤ a ↔ a = EInt.top := by
  rw [le_iff_leb]; cases a <;> simp [leb]

theorem I_lt_I {a b : ℤ} : (EInt.I a < EInt.I b) ↔ a < b := by
  rw [lt_iff_le_not_le, I_le_I, I_le_I]; omega

theorem bot_lt_I (n : ℤ) : EInt.bot < EInt.I n := by
  rw [lt_iff_le_not_le]
  refine ⟨bot_le' _, ?_⟩
  rw [le_iff_leb]; simp [leb]

theorem I_lt_top (n : ℤ) : EInt.I n < EInt.top := by
  rw [lt_iff_le_not_le]
  refine ⟨le_top' _, ?_⟩
  rw [le_iff_leb]; simp [leb]

theorem bot_lt_top : EInt.bot < EInt.top := by
  rw [lt_iff_le_not_le]
  refine ⟨bot_le' _, ?_⟩
  rw [le_iff_leb]; simp [leb]

end EInt

/-- A board is a total function from integer coordinates to cell values.
The engine uses -1 (player 1 / X), 0 (empty), 1 (player 2 / O). -/
def Board : Type := ℤ → ℤ → ℤ

/-- Functional update of one cell, embedding `board[row, col] = v`. -/
def place (b : Board) (row col v : ℤ) : Board :=
  fun r c => if r = row ∧ c = col then v else b r c

theorem place_same (b : Board) (row col v : ℤ) : place b row col v row col = v := by
  simp [place]

theorem place_other (b : Board) (row col v r c : ℤ) (h : ¬(r = row ∧ c = col)) :
    place b row col v r c = b r c := by
  simp [place, h]

/-- All cells of a `size × size` board in row-major order (the iteration order
of `np.where` in C order). -/
def allCells (size : ℕ) : List (ℤ × ℤ) :=
  (List.range size).flatMap fun r => (List.range size).map fun c : ℕ => ((r : ℤ), (c : ℤ))

/-- Embeds `TicTacToeGame.get_valid_moves` (game_engine.py line 44):
`list(zip(*np.where(self.board == 0)))`, the empty cells in row-major order. -/
def validMoves (size : ℕ) (b : Board) : List (ℤ × ℤ) :=
  (allCells size).filter fun rc => decide (b rc.1 rc.2 = 0)

/-- Number of empty cells of the board. -/
def emptyCount (size : ℕ) (b : Board) : ℕ :=
  (validMoves size b).length

/-- Embeds the bounded walk of `TicTacToeGame._check_line` (game_engine.py
lines 106-117): starting at `(r, c)`, count consecutive in-bounds cells equal
to `player` stepping by `(dr, dc)`.  The Python `while` loop is unbounded but
can take at most `size - 1` steps before leaving the board, so fuel `size`
(the first argument of the inner recursion) makes the embedding exact. -/
def walkCount (size : ℕ) (b : Board) (p dr dc : ℤ) : ℕ → ℤ → ℤ → ℕ
  | 0, _, _ => 0
  | n + 1, r, c =>
      if 0 ≤ r ∧ r < (size : ℤ) ∧ 0 ≤ c ∧ c < (size : ℤ) ∧ b r c = p then
        walkCount size b p dr dc n (r + dr) (c + dc) + 1
      else 0

/-- Embeds `TicTacToeGame._check_line` (game_engine.py lines 99-119):
count = 1 (the origin cell) + the walks in the positive and negative
directions; a win needs `count >= win_length`. -/
def checkLine (size K : ℕ) (b : Board) (row col dr dc p : ℤ) : Bool :=
  decide (K ≤ 1 + walkCount size b p dr dc size (row + dr) (col + dc)
            + walkCount size b p (-dr) (-dc) size (row - dr) (col - dc))

/-- Embeds `TicTacToeGame._check_win` (game_engine.py lines 80-97): the four
axis directions are tried with `player = board[row, col]`. -/
def checkWin (size K : ℕ) (b : Board) (row col : ℤ) : Bool :=
  let p := b row col
  checkLine size K b row col 0 1 p || checkLine size K b row col 1 0 p ||
    checkLine size K b row col 1 1 p || checkLine size K b row col 1 (-1) p

/-- Embeds the effective win length of `TicTacToeGame.__init__` (game_engine.py
line 27): `win_length if win_length else (size if size <= 5 else 5)`.  Python
truthiness makes both `None` and `0` select the default. -/
def effectiveWinLength (size : ℕ) (winLength? : Option ℕ) : ℕ :=
  match winLength? with
  | none => if size ≤ 5 then size else 5
  | some w => if w = 0 then (if size ≤ 5 then size else 5) else w

/-- The state of `TicTacToeGame` (game_engine.py lines 26-32). -/
structure GameState where
  size : ℕ
  winLength : ℕ
  board : Board
  currentPlayer : ℤ
  moveHistory : List (ℤ × ℤ × ℤ)
  gameOver : Bool
  winner : Option ℤ

/-- Embeds `TicTacToeGame.__init__` (game_engine.py lines 18-32). -/
def GameState.init (size : ℕ) (winLength? : Option ℕ) : GameState where
  size := size
  winLength := effectiveWinLength size winLength?
  board := fun _ _ => 0
  currentPlayer := -1
  moveHistory := []
  gameOver := false
  winner := none

/-- Embeds `TicTacToeGame.reset` (game_engine.py lines 34-40). -/
def GameState.reset (g : GameState) : GameState where
  size := g.size
  winLength := g.winLength
  board := fun _ _ => 0
  currentPlayer := -1
  moveHistory := []
  gameOver := false
  winner := none

/-- Embeds `TicTacToeGame.make_move` (game_engine.py lines 46-78), returning
the Python boolean result together with the successor state. -/
def makeMove (g : GameState) (row col : ℤ) : Bool × GameState :=
  if g.gameOver then (false, g)
  else if ¬(0 ≤ row ∧ row < (g.size : ℤ) ∧ 0 ≤ col ∧ col < (g.size : ℤ)) then (false, g)
  else if g.board row col ≠ 0 then (false, g)
  else
    let b' := place g.board row col g.currentPlayer
    let hist := g.moveHistory ++ [(row, col, g.currentPlayer)]
    if checkWin g.size g.winLength b' row col then
      (true, { g with board := b', moveHistory := hist, gameOver := true,
                      winner := some g.currentPlayer })
    else if validMoves g.size b' = [] then
      (true, { g with board := b', moveHistory := hist, gameOver := true,
                      winner := some 0 })
    else
      (true, { g with board := b', moveHistory := hist,
                      currentPlayer := -g.currentPlayer })

/-- Apply a list of moves in order, embedding successive `make_move` calls. -/
def applyMoves (g : GameState) : List (ℤ × ℤ) → GameState
  | [] => g
  | m :: rest => applyMoves (makeMove g m.1 m.2).2 rest

/-- All moves in the list are accepted when applied in order. -/
def allSucceedB (g : GameState) : List (ℤ × ℤ) → Bool
  | [] => true
  | m :: rest => (makeMove g m.1 m.2).1 && allSucceedB (makeMove g m.1 m.2).2 rest

/-- Concrete boards for test positions: row-major cell lists, zero outside. -/
def boardOfRows (rows : List (List ℤ)) : Board := fun r c =>
  if 0 ≤ r ∧ 0 ≤ c then (rows.getD r.toNat []).getD c.toNat 0 else 0

/-! The minimax player, `src/tictactoe/players/minimax_player.py`. -/

/-- Embeds `MinimaxPlayer._has_won` (minimax_player.py lines 151-180): scan all
row, column and (both) diagonal windows of length `Kp` for a full run of
`p`.  `Kp` is the player's assumed win length `min(5, board_size)`. -/
def hasWon (size Kp : ℕ) (b : Board) (p : ℤ) : Bool :=
  ((List.range size).any fun i => (List.range (size - Kp + 1)).any fun j =>
      (List.range Kp).all fun k => decide (b (i : ℤ) ((j : ℤ) + (k : ℤ)) = p)) ||
  ((List.range (size - Kp + 1)).any fun i => (List.range size).any fun j =>
      (List.range Kp).all fun k => decide (b ((i : ℤ) + (k : ℤ)) (j : ℤ) = p)) ||
  ((List.range (size - Kp + 1)).any fun i => (List.range (size - Kp + 1)).any fun j =>
      (List.range Kp).all fun k => decide (b ((i : ℤ) + (k : ℤ)) ((j : ℤ) + (k : ℤ)) = p)) ||
  ((List.range (size - Kp + 1)).any fun i => (List.range' (Kp - 1) (size - (Kp - 1))).any fun j =>
      (List.range Kp).all fun k => decide (b ((i : ℤ) + (k : ℤ)) ((j : ℤ) - (k : ℤ)) = p))

/-- Embeds `MinimaxPlayer._check_winner` (minimax_player.py lines 133-149):
player -1 is tested first, then 1; a full board with no winner is a draw (0);
otherwise the game continues (`none`). -/
def checkWinner (size Kp : ℕ) (b : Board) : Option ℤ :=
  if hasWon size Kp b (-1) then some (-1)
  else if hasWon size Kp b 1 then some 1
  else if validMoves size b = [] then some 0
  else none

/-- Embeds `MinimaxPlayer._evaluate_window` (minimax_player.py lines 209-227). -/
def evaluateWindow (Kp : ℕ) (window : List ℤ) (p : ℤ) : ℤ :=
  let playerCount : ℤ := window.countP (fun x => decide (x = p))
  let emptyCnt : ℤ := window.countP (fun x => decide (x = 0))
  let opponentCount : ℤ := window.countP (fun x => decide (x = -p))
  if 0 < opponentCount then 0
  else if playerCount = (Kp : ℤ) - 1 ∧ emptyCnt = 1 then 10
  else if playerCount = (Kp : ℤ) - 2 ∧ emptyCnt = 2 then 5
  else if 0 < playerCount then playerCount
  else 0

/-- The row windows scanned by `MinimaxPlayer._evaluate_position`
(minimax_player.py lines 196-199). -/
def rowWindows (size Kp : ℕ) (b : Board) : List (List ℤ) :=
  (List.range size).flatMap fun i => (List.range (size - Kp + 1)).map fun j : ℕ =>
    (List.range Kp).map fun k : ℕ => b (i : ℤ) ((j : ℤ) + (k : ℤ))

/-- The column windows scanned by `MinimaxPlayer._evaluate_position`
(minimax_player.py lines 202-205). -/
def colWindows (size Kp : ℕ) (b : Board) : List (List ℤ) :=
  (List.range (size - Kp + 1)).flatMap fun i => (List.range size).map fun j : ℕ =>
    (List.range Kp).map fun k : ℕ => b ((i : ℤ) + (k : ℤ)) (j : ℤ)

/-- Embeds `MinimaxPlayer._evaluate_position` (minimax_player.py lines
182-207): row and column windows only, scored for `me` minus the opponent. -/
def evaluatePosition (size Kp : ℕ) (b : Board) (me : ℤ) : ℤ :=
  (((rowWindows size Kp b).map fun w => evaluateWindow Kp w me).sum
    + ((colWindows size Kp b).map fun w => evaluateWindow Kp w me).sum)
  - (((rowWindows size Kp b).map fun w => evaluateWindow Kp w (-me)).sum
    + ((colWindows size Kp b).map fun w => evaluateWindow Kp w (-me)).sum)

/-- The effective depth limit chosen by `MinimaxPlayer.get_move`
(minimax_player.py lines 46-54); `none` stands for `float('inf')`. -/
def effectiveDepthLimit (maxDepth : Option ℕ) (size : ℕ) : Option ℕ :=
  match maxDepth with
  | none => if size ≤ 3 then none else if size ≤ 5 then some 6 else some 3
  | some d => some d

/-- Embeds `depth >= max_depth` (minimax_player.py line 103) for a possibly
infinite limit. -/
def depthReached (depth : ℕ) (limit : Option ℕ) : Bool :=
  match limit with
  | none => false
  | some d => decide (d ≤ depth)

/-- Embeds the maximizing loop of `MinimaxPlayer._minimax` (minimax_player.py
lines 110-120): fold the children through `max`, raise `alpha`, and break as
soon as `beta <= alpha`.  `f m a` is the recursive call on child `m` with the
current `alpha = a`. -/
def abMaxLoop (f : ℤ × ℤ → EInt → EInt) (beta : EInt) :
    List (ℤ × ℤ) → EInt → EInt → EInt
  | [], maxEval, _ => maxEval
  | m :: rest, maxEval, alpha =>
      let e : EInt := f m alpha
      let maxEval' : EInt := max maxEval e
      let alpha' : EInt := max alpha e
      if beta ≤ alpha' then maxEval' else abMaxLoop f beta rest maxEval' alpha'

/-- Embeds the minimizing loop of `MinimaxPlayer._minimax` (minimax_player.py
lines 121-131). -/
def abMinLoop (f : ℤ × ℤ → EInt → EInt) (alpha : EInt) :
    List (ℤ × ℤ) → EInt → EInt → EInt
  | [], minEval, _ => minEval
  | m :: rest, minEval, beta =>
      let e : EInt := f m beta
      let minEval' : EInt := min minEval e
      let beta' : EInt := min beta e
      if beta' ≤ alpha then minEval' else abMinLoop f alpha rest minEval' beta'

/-- Embeds `MinimaxPlayer._minimax` (minimax_player.py lines 76-131): depth
limited minimax with alpha-beta pruning.  The recursion consumes one unit of
fuel per ply; any fuel larger than the number of empty cells reproduces the
Python recursion exactly (the move lists shrink by one each ply). -/
def abSearch (size Kp : ℕ) (me : ℤ) (limit : Option ℕ) :
    ℕ → Board → ℕ → Bool → EInt → EInt → EInt
  | 0, b, _, _, _, _ => .I (evaluatePosition size Kp b me)
  | fuel + 1, b, depth, isMax, alpha, beta =>
    match checkWinner size Kp b with
    | some w =>
        if w = me then .I (1000 - (depth : ℤ))
        else if w = -me then .I (-1000 + (depth : ℤ))
        else .I 0
    | none =>
        if depthReached depth limit then .I (evaluatePosition size Kp b me)
        else if validMoves size b = [] then .I 0
        else if isMax then
          abMaxLoop
            (fun m a => abSearch size Kp me limit fuel (place b m.1 m.2 me)
              (depth + 1) false a beta) beta (validMoves size b) .bot alpha
        else
          abMinLoop
            (fun m bt => abSearch size Kp me limit fuel (place b m.1 m.2 (-me))
              (depth + 1) true alpha bt) alpha (validMoves size b) .top beta

/-- Modelled from the spec (§4.4, "exhaustive (unpruned) minimax at the same
depth limit"): the comparison point for the refinement claim.  Identical to
`abSearch` except that children are folded through plain `max`/`min` with no
alpha-beta window. -/
def mmSearch (size Kp : ℕ) (me : ℤ) (limit : Option ℕ) :
    ℕ → Board → ℕ → Bool → EInt
  | 0, b, _, _ => .I (evaluatePosition size Kp b me)
  | fuel + 1, b, depth, isMax =>
    match checkWinner size Kp b with
    | some w =>
        if w = me then .I (1000 - (depth : ℤ))
        else if w = -me then .I (-1000 + (depth : ℤ))
        else .I 0
    | none =>
        if depthReached depth limit then .I (evaluatePosition size Kp b me)
        else if validMoves size b = [] then .I 0
        else if isMax then
          (validMoves size b).foldl (fun a m =>
            max a (mmSearch size Kp me limit fuel (place b m.1 m.2 me) (depth + 1) false)) .bot
        else
          (validMoves size b).foldl (fun a m =>
            min a (mmSearch size Kp me limit fuel (place b m.1 m.2 (-me)) (depth + 1) true)) .top

/-- Embeds the top-level loop of `MinimaxPlayer.get_move` (minimax_player.py
lines 56-74): track the best (move, score) pair, replacing it only on a
strict improvement, so the first move with the maximal score wins ties. -/
def chooseLoop (s : ℤ × ℤ → EInt) : List (ℤ × ℤ) → ℤ × ℤ → EInt → (ℤ × ℤ) × EInt
  | [], bm, bs => (bm, bs)
  | m :: rest, bm, bs =>
      let sc := s m
      if bs < sc then chooseLoop s rest m sc else chooseLoop s rest bm bs

/-- The score `MinimaxPlayer.get_move` computes for a candidate move (line 65):
apply the move and run `_minimax` at depth 0 for the opponent with the full
window.  The fuel `size * size` exceeds the number of empty cells left. -/
def abScore (size : ℕ) (me : ℤ) (maxDepth : Option ℕ) (b : Board) (m : ℤ × ℤ) : EInt :=
  abSearch size (min 5 size) me (effectiveDepthLimit maxDepth size) (size * size)
    (place b m.1 m.2 me) 0 false .bot .top

/-- Modelled from the spec (§4.4): the same score computed by the exhaustive
unpruned minimax. -/
def mmScore (size : ℕ) (me : ℤ) (maxDepth : Option ℕ) (b : Board) (m : ℤ × ℤ) : EInt :=
  mmSearch size (min 5 size) me (effectiveDepthLimit maxDepth size) (size * size)
    (place b m.1 m.2 me) 0 false

/-- Embeds `MinimaxPlayer.get_move` (minimax_player.py lines 27-74) returning
the chosen move together with the final `best_score`.  An empty move list
raises `ValueError` (line 39), embedded as `Except.error`. -/
def minimaxGetMoveCore (size : ℕ) (me : ℤ) (maxDepth : Option ℕ) (b : Board)
    (moves : List (ℤ × ℤ)) : Except String ((ℤ × ℤ) × EInt) :=
  match moves with
  | [] => .error "No valid moves available"
  | m0 :: _ => .ok (chooseLoop (abScore size me maxDepth b) moves m0 .bot)

/-- `MinimaxPlayer.get_move` proper: only the move is returned. -/
def minimaxGetMove (size : ℕ) (me : ℤ) (maxDepth : Option ℕ) (b : Board)
    (moves : List (ℤ × ℤ)) : Except String (ℤ × ℤ) :=
  (minimaxGetMoveCore size me maxDepth b moves).map Prod.fst

/-- Modelled from the spec (§4.4): the top-level choice driven by the
exhaustive unpruned minimax scores, with the same first-strict-improvement
tie-break. -/
def unprunedGetMoveCore (size : ℕ) (me : ℤ) (maxDepth : Option ℕ) (b : Board)
    (moves : List (ℤ × ℤ)) : Except String ((ℤ × ℤ) × EInt) :=
  match moves with
  | [] => .error "No valid moves available"
  | m0 :: _ => .ok (chooseLoop (mmScore size me maxDepth b) moves m0 .bot)

/-! The read-only board view handed to players each turn. -/

/-- Modelled from the spec (§4.1 `snapshot()`): `ImmutableBoard` and
`TicTacToeGame.get_immutable_board` are called by `GameRunner.play_game`
(game_runner.py line 279) and declared in player_interface.py, but their
implementation is not present under src; per the spec the view is an
immutable copy whose mutation attempts fail loudly. -/
structure ImmutableBoard where
  view : Board

/-- Modelled from the spec: reading a cell of the view. -/
def ImmutableBoard.getCell (ib : ImmutableBoard) (r c : ℤ) : ℤ := ib.view r c

/-- Modelled from the spec: every attempted write to the read-only view fails
loudly (`ValueError` per the player_interface.py docstring) and produces no
mutated board. -/
def ImmutableBoard.setCell (_ : ImmutableBoard) (_ _ _ : ℤ) :
    Except String ImmutableBoard :=
  .error "assignment destination is read-only"

/-- Modelled from the spec: the board view `GameRunner.play_game` passes to
`get_move` on each turn (game_runner.py line 279). -/
def runnerBoardView (g : GameState) : ImmutableBoard := ⟨g.board⟩

/-! The seeded random player, `src/tictactoe/players/random_player.py`. -/

/-- Python runtime values passed positionally to constructors. -/
inductive PyValue : Type
  | int (n : ℤ)
  | str (s : String)
  | pyNone
deriving DecidableEq

/-- The attributes set by `Player.__init__` (player_interface.py lines 13-22). -/
structure PlayerBase where
  name : PyValue
  playerId : PyValue

/-- Embeds a positional call of `Player.__init__` (player_interface.py lines
13-22), whose parameters besides `self` are exactly `(name, player_id)`:
Python raises `TypeError` when the argument count differs. -/
def callPlayerInit (args : List PyValue) : Except String PlayerBase :=
  match args with
  | [n, p] => .ok ⟨n, p⟩
  | _ => .error "TypeError: Player.__init__ takes 3 positional arguments but 4 were given"

/-- The state of a constructed `RandomPlayer`. -/
structure RandomPlayerState where
  base : PlayerBase
  seed : Option ℤ

/-- Embeds `RandomPlayer.__init__` (random_player.py lines 11-23): it calls
`super().__init__(name, player_id, win_length)` with three positional
arguments (line 21) before seeding, so construction only succeeds if that
call does. -/
def randomPlayerInit (name playerId : PyValue) (seed : Option ℤ)
    (winLength : PyValue) : Except String RandomPlayerState :=
  (callPlayerInit [name, playerId, winLength]).map fun base => ⟨base, seed⟩

/-! Helper lemmas about cells, valid moves and `makeMove`. -/

theorem mem_allCells {size : ℕ} {x y : ℤ} :
    (x, y) ∈ allCells size ↔
      0 ≤ x ∧ x < (size : ℤ) ∧ 0 ≤ y ∧ y < (size : ℤ) := by
  simp only [allCells, List.mem_flatMap, List.mem_map, List.mem_range, Prod.mk.injEq]
  constructor
  · rintro ⟨r, hr, c, hc, h1, h2⟩
    omega
  · rintro ⟨hx0, hx, hy0, hy⟩
    exact ⟨x.toNat, by omega, y.toNat, by omega, by omega, by omega⟩

theorem mem_validMoves {size : ℕ} {b : Board} {x y : ℤ} :
    (x, y) ∈ validMoves size b ↔
      0 ≤ x ∧ x < (size : ℤ) ∧ 0 ≤ y ∧ y < (size : ℤ) ∧ b x y = 0 := by
  simp only [validMoves, List.mem_filter, mem_allCells, decide_eq_true_eq]
  tauto

theorem length_allCells (size : ℕ) : (allCells size).length = size * size := by
  rw [allCells, List.length_flatMap]
  have h : List.map (List.length ∘ fun r : ℕ =>
        (List.range size).map fun c : ℕ => ((r : ℤ), (c : ℤ))) (List.range size)
      = List.replicate size size := by
    rw [List.eq_replicate_iff]
    refine ⟨by rw [List.length_map, List.length_range], ?_⟩
    intro b hb
    rw [List.mem_map] at hb
    obtain ⟨r, _, hr⟩ := hb
    rw [← hr]
    simp
  rw [h, List.sum_replicate, smul_eq_mul]

theorem nodup_allCells (size : ℕ) : (allCells size).Nodup := by
  rw [allCells, List.nodup_flatMap]
  constructor
  · intro r _
    apply List.Nodup.map
    · intro a b hab
      rw [Prod.mk.injEq] at hab
      omega
    · exact List.nodup_range size
  · rw [List.pairwise_iff_forall_sublist]
    intro r1 r2 hsub
    have hne : r1 ≠ r2 := by
      have := hsub.nodup (List.nodup_range size)
      simp at this
      exact this
    intro p hp1 hp2
    rw [List.mem_map] at hp1 hp2
    obtain ⟨c1, _, hc1⟩ := hp1
    obtain ⟨c2, _, hc2⟩ := hp2
    rw [← hc2] at hc1
    rw [Prod.mk.injEq] at hc1
    exact hne (by omega)

theorem emptyCount_le (size : ℕ) (b : Board) : emptyCount size b ≤ size * size := by
  calc emptyCount size b ≤ (allCells size).length := List.length_filter_le _ _
  _ = size * size := length_allCells size

theorem emptyCount_all_zero (size : ℕ) :
    emptyCount size (fun _ _ => 0) = size * size := by
  unfold emptyCount validMoves
  rw [List.filter_eq_self.mpr (by intro a _; simp), length_allCells]

theorem countP_update_mem {r c : ℤ} (p q : ℤ × ℤ → Bool)
    (hp : p (r, c) = true) (hq : q (r, c) = false) :
    ∀ l : List (ℤ × ℤ), l.Nodup → (r, c) ∈ l →
      (∀ x ∈ l, x ≠ (r, c) → p x = q x) →
      l.countP q + 1 = l.countP p := by
  intro l
  induction l with
  | nil => intro _ h; exact absurd h (List.not_mem_nil _)
  | cons x t ih =>
    intro hnd hmem hagree
    rw [List.nodup_cons] at hnd
    rw [List.countP_cons, List.countP_cons]
    by_cases hx : x = (r, c)
    · subst hx
      have ht : t.countP p = t.countP q := by
        apply List.countP_congr
        intro a ha
        rw [hagree a (List.mem_cons_of_mem _ ha) (fun h => hnd.1 (h ▸ ha))]
      simp [hp, hq, ht]
    · have hmem' : (r, c) ∈ t := by
        rcases List.mem_cons.mp hmem with h | h
        · exact absurd h.symm hx
        · exact h
      have hx' : p x = q x := hagree x (List.mem_cons_self _ _) hx
      have hrec := ih hnd.2 hmem' (fun a ha h => hagree a (List.mem_cons_of_mem _ ha) h)
      rw [hx']
      cases hqx : q x <;> simp [hqx] <;> omega

theorem emptyCount_place {size : ℕ} {b : Board} {r c v : ℤ}
    (hmem : (r, c) ∈ validMoves size b) (hv : v ≠ 0) :
    emptyCount size (place b r c v) + 1 = emptyCount size b := by
  have hcell := (mem_validMoves.mp hmem).2.2.2.2
  have hall : (r, c) ∈ allCells size := by
    rw [mem_allCells]
    have := mem_validMoves.mp hmem
    tauto
  have h1 : (fun rc : ℤ × ℤ => decide (b rc.1 rc.2 = 0)) (r, c) = true := by
    simp [hcell]
  have h2 : (fun rc : ℤ × ℤ => decide (place b r c v rc.1 rc.2 = 0)) (r, c) = false := by
    simp [place_same, hv]
  have hagree : ∀ x ∈ allCells size, x ≠ (r, c) →
      (fun rc : ℤ × ℤ => decide (b rc.1 rc.2 = 0)) x
        = (fun rc : ℤ × ℤ => decide (place b r c v rc.1 rc.2 = 0)) x := by
    intro x hx hne
    have hno : ¬(x.1 = r ∧ x.2 = c) := by
      intro hcon
      exact hne (Prod.ext hcon.1 hcon.2)
    simp [place_other _ _ _ _ _ _ hno]
  unfold emptyCount validMoves
  rw [← List.countP_eq_length_filter, ← List.countP_eq_length_filter]
  exact countP_update_mem _ _ h1 h2 (allCells size) (nodup_allCells size) hall hagree

theorem makeMove_success_facts {g : GameState} {row col : ℤ}
    (h : (makeMove g row col).1 = true) :
    (makeMove g row col).2.board = place g.board row col g.currentPlayer ∧
      (row, col) ∈ validMoves g.size g.board := by
  simp only [makeMove] at h ⊢
  split_ifs at h ⊢ with h1 h2 h3 h4 h5 <;> simp_all [mem_validMoves]

theorem makeMove_preserves_dims (g : GameState) (row col : ℤ) :
    (makeMove g row col).2.size = g.size ∧
      (makeMove g row col).2.winLength = g.winLength := by
  simp only [makeMove]
  split_ifs <;> simp

theorem makeMove_player_pm {g : GameState} {row col : ℤ}
    (h : g.currentPlayer = -1 ∨ g.currentPlayer = 1) :
    (makeMove g row col).2.currentPlayer = -1 ∨
      (makeMove g row col).2.currentPlayer = 1 := by
  simp only [makeMove]
  split_ifs <;> simp <;> omega

theorem applyMoves_emptyCount :
    ∀ (ms : List (ℤ × ℤ)) (g : GameState),
      (g.currentPlayer = -1 ∨ g.currentPlayer = 1) →
      allSucceedB g ms = true →
      emptyCount g.size (applyMoves g ms).board + ms.length
          = emptyCount g.size g.board ∧
        (applyMoves g ms).size = g.size := by
  intro ms
  induction ms with
  | nil => intro g _ _; exact ⟨rfl, rfl⟩
  | cons m rest ih =>
    intro g hpm hall
    rw [allSucceedB, Bool.and_eq_true] at hall
    obtain ⟨hb, hmem⟩ := makeMove_success_facts hall.1
    have hsz := makeMove_preserves_dims g m.1 m.2
    have hv : g.currentPlayer ≠ 0 := by omega
    have hstep := emptyCount_place hmem hv
    have hrec := ih (makeMove g m.1 m.2).2 (makeMove_player_pm hpm) hall.2
    rw [applyMoves]
    constructor
    · rw [List.length_cons]
      rw [hsz.1] at hrec
      rw [hb] at hrec
      omega
    · rw [hrec.2, hsz.1]

/-! Claim theorems: engine-level claims. -/

/-- C9: a game constructed without an explicit `win_length` defaults to `size`
for `size ≤ 5` and to 5 otherwise, and both `size` and the effective
`win_length` are never changed by `make_move` or `reset`. -/
theorem default_win_length_and_immutability :
    (∀ size : ℕ, (GameState.init size none).winLength
        = if size ≤ 5 then size else 5) ∧
    (∀ (g : GameState) (row col : ℤ),
      (makeMove g row col).2.size = g.size ∧
        (makeMove g row col).2.winLength = g.winLength) ∧
    (∀ g : GameState,
      (GameState.reset g).size = g.size ∧
        (GameState.reset g).winLength = g.winLength) :=
  ⟨fun _ => rfl, fun g row col => makeMove_preserves_dims g row col,
    fun _ => ⟨rfl, rfl⟩⟩

/-- C6 (amended): after every successful move that leaves the game running,
`current_player` is negated; game-ending moves keep it unchanged. -/
theorem current_player_alternates_while_game_continues :
    ∀ (g : GameState) (row col : ℤ),
      (makeMove g row col).1 = true →
      (makeMove g row col).2.gameOver = false →
      (makeMove g row col).2.currentPlayer = -g.currentPlayer := by
  intro g row col h hover
  simp only [makeMove] at h hover ⊢
  split_ifs at h hover ⊢ <;> simp_all

/-- Witness for C6 (amended): the opening move of a fresh 3×3 game flips the
current player from -1 to 1. -/
theorem current_player_alternates_witness :
    (makeMove (GameState.init 3 none) 0 0).2.currentPlayer
      = -(GameState.init 3 none).currentPlayer :=
  current_player_alternates_while_game_continues (GameState.init 3 none) 0 0
    (by decide) (by decide)

/-- A 3×3 game after X (0,0), O (1,0), X (0,1), O (1,1): X to move and X wins
by playing (0,2). -/
def gC6 : GameState :=
  applyMoves (GameState.init 3 none) [(0, 0), (1, 0), (0, 1), (1, 1)]

/-- Counterexample to C6 as stated: the winning move (0,2) is accepted
(`make_move` returns true) yet `current_player` stays -1 instead of flipping
to 1, because the win branch of `make_move` skips the negation. -/
theorem current_player_not_flipped_on_winning_move :
    (makeMove gC6 0 2).1 = true ∧ gC6.currentPlayer = -1 ∧
      (makeMove gC6 0 2).2.currentPlayer = -1 := by
  decide

/-- C10: if an accepted move completes a winning line, the game ends with the
mover as winner; the `_check_win` branch precedes the board-full draw branch,
so a simultaneous line-completion and board-fill is a win, never a draw. -/
theorem win_check_precedes_draw_check :
    ∀ (g : GameState) (row col : ℤ),
      (makeMove g row col).1 = true →
      checkWin g.size g.winLength (place g.board row col g.currentPlayer) row col = true →
      (makeMove g row col).2.winner = some g.currentPlayer ∧
        (makeMove g row col).2.gameOver = true := by
  intro g row col h hw
  simp only [makeMove] at h ⊢
  split_ifs at h ⊢ <;> simp_all

/-- A 3×3 game eight moves in: only (1,1) is empty, X to move, and playing it
both completes the middle row and fills the board. -/
def g8c10 : GameState :=
  applyMoves (GameState.init 3 none)
    [(1, 0), (0, 0), (1, 2), (0, 1), (0, 2), (2, 1), (2, 0), (2, 2)]

/-- Witness for C10: the board-filling winning move yields the mover as
winner (not a draw), with no empty cell left. -/
theorem win_check_precedes_draw_check_witness :
    ((makeMove g8c10 1 1).2.winner = some g8c10.currentPlayer ∧
        (makeMove g8c10 1 1).2.gameOver = true) ∧
      emptyCount 3 (makeMove g8c10 1 1).2.board = 0 :=
  ⟨win_check_precedes_draw_check g8c10 1 1 (by decide) (by decide), by decide⟩

/-- C3: `make_move` succeeds only on an in-bounds empty target; any
out-of-bounds or occupied target returns false and leaves the whole state
unchanged; after `N` accepted moves from a fresh board, the valid-move list
has exactly `size² − N` entries; and the valid-move list of any board holds
exactly its in-bounds empty cells. -/
theorem make_move_legality_and_move_count :
    (∀ (g : GameState) (row col : ℤ), (makeMove g row col).1 = true →
      0 ≤ row ∧ row < (g.size : ℤ) ∧ 0 ≤ col ∧ col < (g.size : ℤ) ∧
        g.board row col = 0) ∧
    (∀ (g : GameState) (row col : ℤ),
      (¬(0 ≤ row ∧ row < (g.size : ℤ) ∧ 0 ≤ col ∧ col < (g.size : ℤ)) ∨
          g.board row col ≠ 0) →
      makeMove g row col = (false, g)) ∧
    (∀ (size : ℕ) (w : Option ℕ) (ms : List (ℤ × ℤ)),
      allSucceedB (GameState.init size w) ms = true →
      emptyCount size (applyMoves (GameState.init size w) ms).board + ms.length
        = size * size) ∧
    (∀ (size : ℕ) (b : Board) (x y : ℤ),
      (x, y) ∈ validMoves size b ↔
        0 ≤ x ∧ x < (size : ℤ) ∧ 0 ≤ y ∧ y < (size : ℤ) ∧ b x y = 0) := by
  refine ⟨?_, ?_, ?_, fun _ _ _ _ => mem_validMoves⟩
  · intro g row col h
    exact mem_validMoves.mp (makeMove_success_facts h).2
  · intro g row col h
    by_cases hgo : g.gameOver
    · simp [makeMove, hgo]
    · rcases h with h | h
      · simp [makeMove, hgo, h]
      · by_cases hb : (0 ≤ row ∧ row < (g.size : ℤ) ∧ 0 ≤ col ∧ col < (g.size : ℤ))
        · simp [makeMove, hgo, hb, h]
        · simp [makeMove, hgo, hb]
  · intro size w ms hall
    have h := (applyMoves_emptyCount ms (GameState.init size w) (Or.inl rfl) hall).1
    have hz : emptyCount size (fun _ _ => (0 : ℤ)) = size * size :=
      emptyCount_all_zero size
    exact h.trans hz

/-- Witness for C3: two accepted moves on a fresh 3×3 board leave exactly
9 − 2 valid moves. -/
theorem make_move_legality_witness :
    emptyCount 3 (applyMoves (GameState.init 3 none) [(0, 0), (1, 1)]).board + 2
      = 3 * 3 := by
  simpa using
    make_move_legality_and_move_count.2.2.1 3 none [(0, 0), (1, 1)] (by decide)

/-! Claim theorems: interface-level claims. -/

/-- C7: the minimax player's `get_move` raises `ValueError` (embedded as
`Except.error`) when called with an empty legal-move list, for every board. -/
theorem get_move_empty_moves_errors :
    ∀ (size : ℕ) (me : ℤ) (maxDepth : Option ℕ) (b : Board),
      minimaxGetMove size me maxDepth b []
        = Except.error "No valid moves available" :=
  fun _ _ _ _ => rfl

/-- C1: the board view the orchestrator hands to `get_move` each turn reads
exactly the real board, and every attempted write to it fails loudly with an
error while producing no mutated board (spec-modelled `ImmutableBoard`). -/
theorem runner_board_view_read_only :
    ∀ (g : GameState) (r c v : ℤ),
      (runnerBoardView g).setCell r c v
          = Except.error "assignment destination is read-only" ∧
        ∀ r' c' : ℤ, (runnerBoardView g).getCell r' c' = g.board r' c' :=
  fun _ _ _ _ => ⟨rfl, fun _ _ => rfl⟩

/-- C8 (code bug): constructing a `RandomPlayer` always raises `TypeError`,
because `RandomPlayer.__init__` passes three positional arguments to
`Player.__init__`, which accepts only `(name, player_id)`; in particular no
seeded random player can be constructed at all. -/
theorem random_player_init_type_error :
    ∀ (name playerId : PyValue) (seed : Option ℤ) (winLength : PyValue),
      randomPlayerInit name playerId seed winLength
        = Except.error
            "TypeError: Player.__init__ takes 3 positional arguments but 4 were given" :=
  fun _ _ _ _ => rfl

/-! Win-detection specification (claim C2): a cell participates in a
contiguous run of at least `K` cells of value `p` along an axis. -/

/-- The spec-side predicate of C2: some contiguous in-bounds segment of cells
all equal to `p`, running `i` steps backwards and `j` steps forwards from
`(row, col)` along direction `(dr, dc)`, has total length `i + j + 1 ≥ K`. -/
def RunThrough (size : ℕ) (b : Board) (p row col dr dc : ℤ) (K : ℕ) : Prop :=
  ∃ i j : ℕ, K ≤ i + j + 1 ∧
    ∀ t : ℤ, -(i : ℤ) ≤ t → t ≤ (j : ℤ) →
      0 ≤ row + t * dr ∧ row + t * dr < (size : ℤ) ∧
      0 ≤ col + t * dc ∧ col + t * dc < (size : ℤ) ∧
      b (row + t * dr) (col + t * dc) = p

/-- The four axis directions tried by `_check_win`. -/
def axisDirs : List (ℤ × ℤ) := [(0, 1), (1, 0), (1, 1), (1, -1)]

/-- A direction is one of the four `_check_win` axes. -/
def IsAxis (dr dc : ℤ) : Prop :=
  (dr = 0 ∧ dc = 1) ∨ (dr = 1 ∧ dc = 0) ∨ (dr = 1 ∧ dc = 1) ∨ (dr = 1 ∧ dc = -1)

theorem walk_sound (size : ℕ) (b : Board) (p dr dc : ℤ) :
    ∀ (n : ℕ) (r c : ℤ) (k : ℕ), k < walkCount size b p dr dc n r c →
      0 ≤ r + k * dr ∧ r + k * dr < (size : ℤ) ∧
      0 ≤ c + k * dc ∧ c + k * dc < (size : ℤ) ∧
      b (r + k * dr) (c + k * dc) = p := by
  intro n
  induction n with
  | zero =>
    intro r c k hk
    rw [walkCount] at hk
    omega
  | succ n ih =>
    intro r c k hk
    rw [walkCount] at hk
    split_ifs at hk with hcond
    · match k with
      | 0 => simpa using hcond
      | k + 1 =>
        have h := ih (r + dr) (c + dc) k (by omega)
        have e1 : r + dr + (k : ℤ) * dr = r + ((k : ℤ) + 1) * dr := by ring
        have e2 : c + dc + (k : ℤ) * dc = c + ((k : ℤ) + 1) * dc := by ring
        rw [e1, e2] at h
        push_cast
        exact h
    · omega

theorem walk_ge (size : ℕ) (b : Board) (p dr dc : ℤ) :
    ∀ (n : ℕ) (r c : ℤ) (j : ℕ), j ≤ n →
      (∀ k : ℕ, k < j →
        0 ≤ r + k * dr ∧ r + k * dr < (size : ℤ) ∧
        0 ≤ c + k * dc ∧ c + k * dc < (size : ℤ) ∧
        b (r + k * dr) (c + k * dc) = p) →
      j ≤ walkCount size b p dr dc n r c := by
  intro n
  induction n with
  | zero => intro r c j hj _; omega
  | succ n ih =>
    intro r c j hj h
    match j with
    | 0 => omega
    | j + 1 =>
      have h0 := h 0 (by omega)
      simp only [Nat.cast_zero, zero_mul, add_zero] at h0
      rw [walkCount, if_pos h0]
      have hstep : ∀ k : ℕ, k < j →
          0 ≤ r + dr + k * dr ∧ r + dr + k * dr < (size : ℤ) ∧
          0 ≤ c + dc + k * dc ∧ c + dc + k * dc < (size : ℤ) ∧
          b (r + dr + k * dr) (c + dc + k * dc) = p := by
        intro k hk
        have hh := h (k + 1) (by omega)
        have e1 : r + ((k : ℕ) + 1 : ℤ) * dr = r + dr + (k : ℤ) * dr := by ring
        have e2 : c + ((k : ℕ) + 1 : ℤ) * dc = c + dc + (k : ℤ) * dc := by ring
        push_cast at hh
        rw [e1, e2] at hh
        exact hh
      have := ih (r + dr) (c + dc) j (by omega) hstep
      omega

theorem window_bound {size : ℕ} {b : Board} {p row col dr dc : ℤ} {i j : ℕ}
    (hax : IsAxis dr dc)
    (hwin : ∀ t : ℤ, -(i : ℤ) ≤ t → t ≤ (j : ℤ) →
      0 ≤ row + t * dr ∧ row + t * dr < (size : ℤ) ∧
      0 ≤ col + t * dc ∧ col + t * dc < (size : ℤ) ∧
      b (row + t * dr) (col + t * dc) = p) :
    i + j + 1 ≤ size := by
  have h1 := hwin (-(i : ℤ)) (le_refl _) (by omega)
  have h2 := hwin (j : ℤ) (by omega) (le_refl _)
  rcases hax with ⟨h3, h4⟩ | ⟨h3, h4⟩ | ⟨h3, h4⟩ | ⟨h3, h4⟩ <;> subst h3 <;> subst h4 <;>
    simp only [mul_zero, mul_one, add_zero, mul_neg] at h1 h2 <;> omega

theorem checkLine_iff_runThrough (size K : ℕ) (b : Board) (row col dr dc : ℤ)
    (hax : IsAxis dr dc)
    (hin : 0 ≤ row ∧ row < (size : ℤ) ∧ 0 ≤ col ∧ col < (size : ℤ)) :
    checkLine size K b row col dr dc (b row col) = true ↔
      RunThrough size b (b row col) row col dr dc K := by
  rw [checkLine, decide_eq_true_iff]
  constructor
  · intro hcount
    refine ⟨walkCount size b (b row col) (-dr) (-dc) size (row - dr) (col - dc),
            walkCount size b (b row col) dr dc size (row + dr) (col + dc),
            by omega, ?_⟩
    intro t ht1 ht2
    rcases lt_trichotomy t 0 with hneg | hzero | hpos
    · have hk : ((-t).toNat - 1 : ℕ) < walkCount size b (b row col) (-dr) (-dc)
          size (row - dr) (col - dc) := by omega
      have hs := walk_sound size b (b row col) (-dr) (-dc) size
        (row - dr) (col - dc) ((-t).toNat - 1) hk
      have e1 : row - dr + ((-t).toNat - 1 : ℕ) * -dr = row + t * dr := by
        have : (((-t).toNat - 1 : ℕ) : ℤ) = -t - 1 := by omega
        rw [this]; ring
      have e2 : col - dc + ((-t).toNat - 1 : ℕ) * -dc = col + t * dc := by
        have : (((-t).toNat - 1 : ℕ) : ℤ) = -t - 1 := by omega
        rw [this]; ring
      rw [e1, e2] at hs
      exact hs
    · subst hzero
      simp only [zero_mul, add_zero]
      exact ⟨hin.1, hin.2.1, hin.2.2.1, hin.2.2.2, by trivial⟩
    · have hk : (t.toNat - 1 : ℕ) < walkCount size b (b row col) dr dc
          size (row + dr) (col + dc) := by omega
      have hs := walk_sound size b (b row col) dr dc size
        (row + dr) (col + dc) (t.toNat - 1) hk
      have e1 : row + dr + (t.toNat - 1 : ℕ) * dr = row + t * dr := by
        have : ((t.toNat - 1 : ℕ) : ℤ) = t - 1 := by omega
        rw [this]; ring
      have e2 : col + dc + (t.toNat - 1 : ℕ) * dc = col + t * dc := by
        have : ((t.toNat - 1 : ℕ) : ℤ) = t - 1 := by omega
        rw [this]; ring
      rw [e1, e2] at hs
      exact hs
  · rintro ⟨i, j, hK, hwin⟩
    have hsz : i + j + 1 ≤ size := window_bound hax hwin
    have hj : j ≤ walkCount size b (b row col) dr dc size (row + dr) (col + dc) := by
      apply walk_ge size b (b row col) dr dc size (row + dr) (col + dc) j (by omega)
      intro k hk
      have hh := hwin ((k : ℤ) + 1) (by omega) (by omega)
      have e1 : row + ((k : ℤ) + 1) * dr = row + dr + (k : ℤ) * dr := by ring
      have e2 : col + ((k : ℤ) + 1) * dc = col + dc + (k : ℤ) * dc := by ring
      rw [e1, e2] at hh
      exact hh
    have hi : i ≤ walkCount size b (b row col) (-dr) (-dc) size (row - dr) (col - dc) := by
      apply walk_ge size b (b row col) (-dr) (-dc) size (row - dr) (col - dc) i (by omega)
      intro k hk
      have hh := hwin (-((k : ℤ) + 1)) (by omega) (by omega)
      have e1 : row + -((k : ℤ) + 1) * dr = row - dr + (k : ℤ) * -dr := by ring
      have e2 : col + -((k : ℤ) + 1) * dc = col - dc + (k : ℤ) * -dc := by ring
      rw [e1, e2] at hh
      exact hh
    omega

/-- C2 (amended): for every in-bounds, non-empty cell, `_check_win` is true
iff the cell participates in a contiguous run of at least `win_length` cells
of its own value along one of the four axes.  (For empty cells the code
checks runs of zeros instead, which is what forces the amendment.) -/
theorem check_win_iff_run (size K : ℕ) (b : Board) (row col : ℤ)
    (hin : 0 ≤ row ∧ row < (size : ℤ) ∧ 0 ≤ col ∧ col < (size : ℤ))
    (hne : b row col ≠ 0) :
    checkWin size K b row col = true ↔
      (b row col ≠ 0 ∧
        ∃ d ∈ axisDirs, RunThrough size b (b row col) row col d.1 d.2 K) := by
  have h01 := checkLine_iff_runThrough size K b row col 0 1
    (Or.inl ⟨rfl, rfl⟩) hin
  have h10 := checkLine_iff_runThrough size K b row col 1 0
    (Or.inr (Or.inl ⟨rfl, rfl⟩)) hin
  have h11 := checkLine_iff_runThrough size K b row col 1 1
    (Or.inr (Or.inr (Or.inl ⟨rfl, rfl⟩))) hin
  have h1m := checkLine_iff_runThrough size K b row col 1 (-1)
    (Or.inr (Or.inr (Or.inr ⟨rfl, rfl⟩))) hin
  rw [checkWin]
  simp only [Bool.or_eq_true, axisDirs, List.mem_cons, List.not_mem_nil, or_false,
    exists_eq_or_imp, exists_eq_left]
  rw [h01, h10, h11, h1m]
  constructor
  · intro h
    exact ⟨hne, by tauto⟩
  · intro h
    tauto

/-- The board of a fresh game: every cell empty. -/
def zeroBoard : Board := fun _ _ => 0

/-- Counterexample to C2 as stated: at the empty corner of an all-empty 3×3
board `_check_win` returns true (it finds a «run» of three empty cells), while
the claim requires false for every empty cell. -/
theorem check_win_true_on_empty_cell :
    ¬(checkWin 3 3 zeroBoard 0 0 = true ↔
      (zeroBoard 0 0 ≠ 0 ∧
        ∃ d ∈ axisDirs, RunThrough 3 zeroBoard (zeroBoard 0 0) 0 0 d.1 d.2 3)) := by
  intro h
  exact (h.mp (by decide)).1 rfl

/-- A 3×3 board whose top row is three X stones. -/
def bC2 : Board := boardOfRows [[-1, -1, -1], [1, 1, 0], [0, 0, 0]]

/-- Witness for C2 (amended): the top-left X of a completed top row satisfies
the hypotheses, and the equivalence applies to it. -/
theorem check_win_iff_run_witness :
    bC2 0 0 ≠ 0 ∧
      (checkWin 3 3 bC2 0 0 = true ↔
        (bC2 0 0 ≠ 0 ∧
          ∃ d ∈ axisDirs, RunThrough 3 bC2 (bC2 0 0) 0 0 d.1 d.2 3)) :=
  ⟨by decide, check_win_iff_run 3 3 bC2 0 0 (by norm_num) (by decide)⟩

/-! Alpha-beta correctness (claim C5).  The classical fail-soft tri-partition:
a windowed search result below `alpha` upper-bounds the true value, above
`beta` lower-bounds it, and strictly inside the window equals it. -/

/-- Fail-soft alpha-beta accuracy of `w` against the true value `v` for the
window `(alpha, beta)`. -/
def Tri (w v alpha beta : EInt) : Prop :=
  (w ≤ alpha → v ≤ w) ∧ (beta ≤ w → w ≤ v) ∧ (alpha < w → w < beta → w = v)

theorem tri_refl (w alpha beta : EInt) : Tri w w alpha beta :=
  ⟨fun _ => le_refl w, fun _ => le_refl w, fun _ _ => rfl⟩

theorem le_foldl_max (v : ℤ × ℤ → EInt) :
    ∀ (ms : List (ℤ × ℤ)) (a : EInt), a ≤ ms.foldl (fun x m => max x (v m)) a := by
  intro ms
  induction ms with
  | nil => intro a; exact le_refl a
  | cons m rest ih =>
    intro a
    exact le_trans (le_max_left a (v m)) (ih (max a (v m)))

theorem foldl_min_le (v : ℤ × ℤ → EInt) :
    ∀ (ms : List (ℤ × ℤ)) (a : EInt), ms.foldl (fun x m => min x (v m)) a ≤ a := by
  intro ms
  induction ms with
  | nil => intro a; exact le_refl a
  | cons m rest ih =>
    intro a
    exact le_trans (ih (min a (v m))) (min_le_left a (v m))

theorem foldl_max_acc (v : ℤ × ℤ → EInt) :
    ∀ (ms : List (ℤ × ℤ)) (a b : EInt),
      ms.foldl (fun x m => max x (v m)) (max a b)
        = max a (ms.foldl (fun x m => max x (v m)) b) := by
  intro ms
  induction ms with
  | nil => intro a b; rfl
  | cons m rest ih =>
    intro a b
    simp only [List.foldl_cons]
    rw [max_assoc, ih]

theorem foldl_min_acc (v : ℤ × ℤ → EInt) :
    ∀ (ms : List (ℤ × ℤ)) (a b : EInt),
      ms.foldl (fun x m => min x (v m)) (min a b)
        = min a (ms.foldl (fun x m => min x (v m)) b) := by
  intro ms
  induction ms with
  | nil => intro a b; rfl
  | cons m rest ih =>
    intro a b
    simp only [List.foldl_cons]
    rw [min_assoc, ih]

theorem foldl_max_split (v : ℤ × ℤ → EInt) (ms : List (ℤ × ℤ)) (a : EInt) :
    ms.foldl (fun x m => max x (v m)) a
      = max a (ms.foldl (fun x m => max x (v m)) EInt.bot) := by
  have h := foldl_max_acc v ms a EInt.bot
  rwa [max_eq_left (EInt.bot_le' a)] at h

theorem foldl_min_split (v : ℤ × ℤ → EInt) (ms : List (ℤ × ℤ)) (a : EInt) :
    ms.foldl (fun x m => min x (v m)) a
      = min a (ms.foldl (fun x m => min x (v m)) EInt.top) := by
  have h := foldl_min_acc v ms a EInt.top
  rwa [min_eq_left (EInt.le_top' a)] at h

theorem abMaxLoop_cons (f : ℤ × ℤ → EInt → EInt) (beta : EInt) (m : ℤ × ℤ)
    (rest : List (ℤ × ℤ)) (maxEval alpha : EInt) :
    abMaxLoop f beta (m :: rest) maxEval alpha =
      if beta ≤ max alpha (f m alpha) then max maxEval (f m alpha)
      else abMaxLoop f beta rest (max maxEval (f m alpha)) (max alpha (f m alpha)) :=
  rfl

theorem abMinLoop_cons (f : ℤ × ℤ → EInt → EInt) (alpha : EInt) (m : ℤ × ℤ)
    (rest : List (ℤ × ℤ)) (minEval beta : EInt) :
    abMinLoop f alpha (m :: rest) minEval beta =
      if min beta (f m beta) ≤ alpha then min minEval (f m beta)
      else abMinLoop f alpha rest (min minEval (f m beta)) (min beta (f m beta)) :=
  rfl

theorem abMaxLoop_tri (f : ℤ × ℤ → EInt → EInt) (v : ℤ × ℤ → EInt) (beta : EInt)
    (hf : ∀ m alpha', alpha' < beta → Tri (f m alpha') (v m) alpha' beta) :
    ∀ (ms : List (ℤ × ℤ)) (maxEval alpha : EInt), maxEval ≤ alpha → alpha < beta →
      Tri (abMaxLoop f beta ms maxEval alpha)
        (ms.foldl (fun a m => max a (v m)) maxEval) alpha beta := by
  intro ms
  induction ms with
  | nil => intro maxEval alpha _ _; exact tri_refl _ _ _
  | cons m rest ih =>
    intro maxEval alpha hma hab
    rw [abMaxLoop_cons, List.foldl_cons]
    have htri := hf m alpha hab
    by_cases hcut : beta ≤ max alpha (f m alpha)
    · rw [if_pos hcut]
      have hbe : beta ≤ f m alpha := by
        rcases le_max_iff.mp hcut with h | h
        · exact absurd h (not_le.mpr hab)
        · exact h
      have hve : f m alpha ≤ v m := htri.2.1 hbe
      have hw : max maxEval (f m alpha) = f m alpha :=
        max_eq_right (le_trans hma (le_trans hab.le hbe))
      rw [hw]
      refine ⟨?_, ?_, ?_⟩
      · intro hle
        exact absurd (lt_of_lt_of_le hab hbe) (not_lt.mpr hle)
      · intro _
        calc f m alpha ≤ v m := hve
          _ ≤ max maxEval (v m) := le_max_right _ _
          _ ≤ _ := le_foldl_max v rest _
      · intro _ hlt
        exact absurd hlt (not_lt.mpr hbe)
    · rw [if_neg hcut]
      have halpha' : max alpha (f m alpha) < beta := not_le.mp hcut
      have hma' : max maxEval (f m alpha) ≤ max alpha (f m alpha) :=
        max_le_max hma (le_refl _)
      have IH := ih (max maxEval (f m alpha)) (max alpha (f m alpha)) hma' halpha'
      by_cases helow : f m alpha ≤ alpha
      · -- low child: its value is upper-bounded by the returned score
        have hv_le : v m ≤ f m alpha := htri.1 helow
        have hae : max alpha (f m alpha) = alpha := max_eq_left helow
        rw [hae] at IH halpha' ⊢
        rw [foldl_max_split v rest (max maxEval (v m))]
        rw [foldl_max_split v rest (max maxEval (f m alpha))] at IH
        refine ⟨?_, ?_, ?_⟩
        · intro hle
          have h1 := IH.1 hle
          refine le_trans ?_ h1
          exact max_le_max (max_le_max (le_refl _) hv_le) (le_refl _)
        · intro hbw
          have h1 := IH.2.1 hbw
          have hwgt : alpha <
              abMaxLoop f beta rest (max maxEval (f m alpha)) alpha :=
            lt_of_lt_of_le hab hbw
          rcases le_max_iff.mp h1 with h | h
          · have : abMaxLoop f beta rest (max maxEval (f m alpha)) alpha ≤ alpha :=
              le_trans h (max_le hma helow)
            exact absurd hwgt (not_lt.mpr this)
          · exact le_trans h (le_max_right _ _)
        · intro haw hwb
          have heq := IH.2.2 haw hwb
          have hsm : max maxEval (f m alpha) ≤ alpha := max_le hma helow
          have hR : rest.foldl (fun a m => max a (v m)) EInt.bot
              = abMaxLoop f beta rest (max maxEval (f m alpha)) alpha := by
            rcases max_choice (max maxEval (f m alpha))
                (rest.foldl (fun a m => max a (v m)) EInt.bot) with h | h
            · rw [h] at heq
              exact absurd (heq ▸ haw) (not_lt.mpr hsm)
            · rw [h] at heq
              exact heq.symm
          have hsm2 : max maxEval (v m) ≤ alpha :=
            max_le hma (le_trans hv_le helow)
          have halR : alpha ≤ rest.foldl (fun a m => max a (v m)) EInt.bot := by
            rw [hR]
            exact haw.le
          rw [heq, max_eq_right (le_trans hsm halR), max_eq_right (le_trans hsm2 halR)]
      · -- in-window child: its score is exact
        have hae : alpha < f m alpha := not_le.mp helow
        have he_lt_beta : f m alpha < beta :=
          lt_of_le_of_lt (le_max_right alpha (f m alpha)) halpha'
        have hev : f m alpha = v m := htri.2.2 hae he_lt_beta
        rw [← hev]
        have hae2 : max alpha (f m alpha) = f m alpha := max_eq_right hae.le
        rw [hae2] at IH halpha' ⊢
        refine ⟨?_, ?_, ?_⟩
        · intro hle
          exact IH.1 (le_trans hle hae.le)
        · intro hbw
          exact IH.2.1 hbw
        · intro haw hwb
          by_cases hwe : abMaxLoop f beta rest (max maxEval (f m alpha)) (f m alpha)
              ≤ f m alpha
          · have h1 := IH.1 hwe
            have h2 : f m alpha ≤
                rest.foldl (fun a m => max a (v m)) (max maxEval (f m alpha)) :=
              le_trans (le_max_right maxEval _) (le_foldl_max v rest _)
            exact le_antisymm (le_trans hwe h2) h1
          · exact IH.2.2 (not_le.mp hwe) hwb

theorem abMinLoop_tri (f : ℤ × ℤ → EInt → EInt) (v : ℤ × ℤ → EInt) (alpha : EInt)
    (hf : ∀ m beta', alpha < beta' → Tri (f m beta') (v m) alpha beta') :
    ∀ (ms : List (ℤ × ℤ)) (minEval beta : EInt), beta ≤ minEval → alpha < beta →
      Tri (abMinLoop f alpha ms minEval beta)
        (ms.foldl (fun a m => min a (v m)) minEval) alpha beta := by
  intro ms
  induction ms with
  | nil => intro minEval beta _ _; exact tri_refl _ _ _
  | cons m rest ih =>
    intro minEval beta hmb hab
    rw [abMinLoop_cons, List.foldl_cons]
    have htri := hf m beta hab
    by_cases hcut : min beta (f m beta) ≤ alpha
    · rw [if_pos hcut]
      have hbe : f m beta ≤ alpha := by
        rcases min_le_iff.mp hcut with h | h
        · exact absurd h (not_le.mpr hab)
        · exact h
      have hve : v m ≤ f m beta := htri.1 hbe
      have hw : min minEval (f m beta) = f m beta :=
        min_eq_right (le_trans hbe (le_trans hab.le hmb))
      rw [hw]
      refine ⟨?_, ?_, ?_⟩
      · intro _
        calc rest.foldl (fun a m => min a (v m)) (min minEval (v m))
            ≤ min minEval (v m) := foldl_min_le v rest _
          _ ≤ v m := min_le_right _ _
          _ ≤ f m beta := hve
      · intro hle
        exact absurd (lt_of_le_of_lt hbe hab) (not_lt.mpr hle)
      · intro hlt _
        exact absurd hlt (not_lt.mpr hbe)
    · rw [if_neg hcut]
      have hbeta' : alpha < min beta (f m beta) := not_le.mp hcut
      have hmb' : min beta (f m beta) ≤ min minEval (f m beta) :=
        min_le_min hmb (le_refl _)
      have IH := ih (min minEval (f m beta)) (min beta (f m beta)) hmb' hbeta'
      by_cases hehigh : beta ≤ f m beta
      · -- high child: its value is lower-bounded by the returned score
        have hv_ge : f m beta ≤ v m := htri.2.1 hehigh
        have hbe : min beta (f m beta) = beta := min_eq_left hehigh
        rw [hbe] at IH hbeta' ⊢
        rw [foldl_min_split v rest (min minEval (v m))]
        rw [foldl_min_split v rest (min minEval (f m beta))] at IH
        have hx' : beta ≤ min minEval (f m beta) := le_min hmb hehigh
        refine ⟨?_, ?_, ?_⟩
        · intro hle
          have h1 := IH.1 hle
          have hRle : rest.foldl (fun a m => min a (v m)) EInt.top
              ≤ abMinLoop f alpha rest (min minEval (f m beta)) beta := by
            rcases min_choice (min minEval (f m beta))
                (rest.foldl (fun a m => min a (v m)) EInt.top) with h | h
            · rw [h] at h1
              have : beta ≤ alpha := le_trans hx' (le_trans h1 hle)
              exact absurd hab (not_lt.mpr this)
            · rw [h] at h1
              exact h1
          exact le_trans (min_le_right _ _) hRle
        · intro hbw
          have h1 := IH.2.1 hbw
          have hminE : abMinLoop f alpha rest (min minEval (f m beta)) beta
              ≤ min minEval (f m beta) := le_trans h1 (min_le_left _ _)
          have hR : abMinLoop f alpha rest (min minEval (f m beta)) beta
              ≤ rest.foldl (fun a m => min a (v m)) EInt.top :=
            le_trans h1 (min_le_right _ _)
          exact le_min (le_min (le_trans hminE (min_le_left _ _))
            (le_trans (le_trans hminE (min_le_right _ _)) hv_ge)) hR
        · intro haw hwb
          have heq := IH.2.2 haw hwb
          have hx'' : beta ≤ min minEval (v m) := le_min hmb (le_trans hehigh hv_ge)
          have hR : rest.foldl (fun a m => min a (v m)) EInt.top
              = abMinLoop f alpha rest (min minEval (f m beta)) beta := by
            rcases min_choice (min minEval (f m beta))
                (rest.foldl (fun a m => min a (v m)) EInt.top) with h | h
            · rw [h] at heq
              have hbw2 : beta ≤ abMinLoop f alpha rest (min minEval (f m beta)) beta := by
                rw [heq]
                exact hx'
              exact absurd (lt_of_lt_of_le hwb hbw2) (lt_irrefl _)
            · rw [h] at heq
              exact heq.symm
          have hRsmall : ∀ x : EInt, beta ≤ x →
              min x (rest.foldl (fun a m => min a (v m)) EInt.top)
                = rest.foldl (fun a m => min a (v m)) EInt.top := by
            intro x hx
            apply min_eq_right
            rw [hR]
            exact le_trans hwb.le hx
          rw [heq, hRsmall _ hx', hRsmall _ hx'']
      · -- in-window child: its score is exact
        have helt : f m beta < beta := not_le.mp hehigh
        have hbe2 : min beta (f m beta) = f m beta := min_eq_right helt.le
        rw [hbe2] at IH hbeta' ⊢
        have hev : f m beta = v m := htri.2.2 hbeta' helt
        rw [← hev]
        refine ⟨?_, ?_, ?_⟩
        · intro hle
          exact IH.1 hle
        · intro hbw
          exact IH.2.1 (le_trans helt.le hbw)
        · intro haw hwb
          by_cases hwe : f m beta ≤
              abMinLoop f alpha rest (min minEval (f m beta)) (f m beta)
          · have h1 := IH.2.1 hwe
            have h2 : rest.foldl (fun a m => min a (v m)) (min minEval (f m beta))
                ≤ f m beta :=
              le_trans (foldl_min_le v rest _) (min_le_right minEval _)
            exact le_antisymm h1 (le_trans h2 hwe)
          · exact IH.2.2 haw (not_le.mp hwe)

theorem abSearch_tri (size Kp : ℕ) (me : ℤ) (limit : Option ℕ) :
    ∀ (fuel : ℕ) (b : Board) (depth : ℕ) (isMax : Bool) (alpha beta : EInt),
      alpha < beta →
      Tri (abSearch size Kp me limit fuel b depth isMax alpha beta)
        (mmSearch size Kp me limit fuel b depth isMax) alpha beta := by
  intro fuel
  induction fuel with
  | zero =>
    intro b depth isMax alpha beta _
    exact tri_refl _ _ _
  | succ fuel ih =>
    intro b depth isMax alpha beta hab
    rw [abSearch, mmSearch]
    cases hw : checkWinner size Kp b with
    | some w => exact tri_refl _ _ _
    | none =>
      split_ifs with hd hnil hmax
      · exact tri_refl _ _ _
      · exact tri_refl _ _ _
      · refine abMaxLoop_tri _
          (fun m => mmSearch size Kp me limit fuel (place b m.1 m.2 me)
            (depth + 1) false) beta ?_ (validMoves size b) .bot alpha
          (EInt.bot_le' alpha) hab
        intro m alpha' hab'
        exact ih (place b m.1 m.2 me) (depth + 1) false alpha' beta hab'
      · refine abMinLoop_tri _
          (fun m => mmSearch size Kp me limit fuel (place b m.1 m.2 (-me))
            (depth + 1) true) alpha ?_ (validMoves size b) .top beta
          (EInt.le_top' beta) hab
        intro m beta' hab'
        exact ih (place b m.1 m.2 (-me)) (depth + 1) true alpha beta' hab'

/-- With the full window, the pruned search coincides with the exhaustive
minimax: the tri-partition pins the value exactly. -/
theorem abSearch_eq_mmSearch (size Kp : ℕ) (me : ℤ) (limit : Option ℕ)
    (fuel : ℕ) (b : Board) (depth : ℕ) (isMax : Bool) :
    abSearch size Kp me limit fuel b depth isMax .bot .top
      = mmSearch size Kp me limit fuel b depth isMax := by
  obtain ⟨h1, h2, h3⟩ :=
    abSearch_tri size Kp me limit fuel b depth isMax .bot .top EInt.bot_lt_top
  rcases le_or_lt (abSearch size Kp me limit fuel b depth isMax .bot .top)
    EInt.bot with hb | hb
  · rw [EInt.le_bot_iff'.mp hb, EInt.le_bot_iff'.mp (le_trans (h1 hb) hb)]
  · rcases le_or_lt EInt.top
      (abSearch size Kp me limit fuel b depth isMax .bot .top) with ht | ht
    · rw [EInt.top_le_iff'.mp ht,
        EInt.top_le_iff'.mp (le_trans ht (h2 ht)) ]
    · exact h3 hb ht

theorem chooseLoop_cons (s : ℤ × ℤ → EInt) (m : ℤ × ℤ) (rest : List (ℤ × ℤ))
    (bm : ℤ × ℤ) (bs : EInt) :
    chooseLoop s (m :: rest) bm bs =
      if bs < s m then chooseLoop s rest m (s m) else chooseLoop s rest bm bs :=
  rfl

theorem chooseLoop_congr (s1 s2 : ℤ × ℤ → EInt) :
    ∀ (ms : List (ℤ × ℤ)) (bm : ℤ × ℤ) (bs : EInt), (∀ m ∈ ms, s1 m = s2 m) →
      chooseLoop s1 ms bm bs = chooseLoop s2 ms bm bs := by
  intro ms
  induction ms with
  | nil => intro bm bs _; rfl
  | cons m rest ih =>
    intro bm bs h
    rw [chooseLoop_cons, chooseLoop_cons, h m (List.mem_cons_self _ _)]
    split_ifs with hlt
    · exact ih m (s2 m) (fun m' hm' => h m' (List.mem_cons_of_mem _ hm'))
    · exact ih bm bs (fun m' hm' => h m' (List.mem_cons_of_mem _ hm'))

theorem chooseLoop_head (s : ℤ × ℤ → EInt) (m0 : ℤ × ℤ) (rest : List (ℤ × ℤ)) :
    chooseLoop s (m0 :: rest) m0 .bot = chooseLoop s rest m0 (s m0) := by
  rw [chooseLoop_cons]
  by_cases h : EInt.bot < s m0
  · rw [if_pos h]
  · rw [if_neg h]
    rw [EInt.le_bot_iff'.mp (not_lt.mp h)]

theorem chooseLoop_spec (s : ℤ × ℤ → EInt) :
    ∀ (ms : List (ℤ × ℤ)) (bm : ℤ × ℤ) (bs : EInt), s bm = bs →
      s (chooseLoop s ms bm bs).1 = (chooseLoop s ms bm bs).2 ∧
      bs ≤ (chooseLoop s ms bm bs).2 ∧
      (∀ m ∈ ms, s m ≤ (chooseLoop s ms bm bs).2) ∧
      (bm :: ms).find? (fun m => decide (s m = (chooseLoop s ms bm bs).2))
        = some (chooseLoop s ms bm bs).1 := by
  intro ms
  induction ms with
  | nil =>
    intro bm bs hbm
    refine ⟨hbm, le_refl _, by simp, ?_⟩
    have h2 : chooseLoop s [] bm bs = (bm, bs) := rfl
    rw [h2, List.find?_cons]
    simp [hbm]
  | cons m rest ih =>
    intro bm bs hbm
    rw [chooseLoop_cons]
    by_cases hlt : bs < s m
    · rw [if_pos hlt]
      have IH := ih m (s m) rfl
      refine ⟨IH.1, le_trans hlt.le IH.2.1, ?_, ?_⟩
      · intro m' hm'
        rcases List.mem_cons.mp hm' with h | h
        · rw [h]
          exact IH.2.1
        · exact IH.2.2.1 m' h
      · have hne : ¬(s bm = (chooseLoop s rest m (s m)).2) := by
          rw [hbm]
          intro hcon
          have hlt2 : bs < (chooseLoop s rest m (s m)).2 :=
            lt_of_lt_of_le hlt IH.2.1
          rw [← hcon] at hlt2
          exact lt_irrefl bs hlt2
        have hdec : decide (s bm = (chooseLoop s rest m (s m)).2) = false := by
          simp [hne]
        rw [List.find?_cons, hdec]
        exact IH.2.2.2
    · rw [if_neg hlt]
      have hle : s m ≤ bs := not_lt.mp hlt
      have IH := ih bm bs hbm
      refine ⟨IH.1, IH.2.1, ?_, ?_⟩
      · intro m' hm'
        rcases List.mem_cons.mp hm' with h | h
        · rw [h]
          exact le_trans hle IH.2.1
        · exact IH.2.2.1 m' h
      · have hf := IH.2.2.2
        rw [List.find?_cons] at hf
        by_cases hpb : s bm = (chooseLoop s rest bm bs).2
        · have hdec : decide (s bm = (chooseLoop s rest bm bs).2) = true := by
            simp [hpb]
          rw [hdec] at hf
          rw [List.find?_cons, hdec]
          exact hf
        · have hdec : decide (s bm = (chooseLoop s rest bm bs).2) = false := by
            simp [hpb]
          rw [hdec] at hf
          have hpm : ¬(s m = (chooseLoop s rest bm bs).2) := by
            intro hcon
            have hble : (chooseLoop s rest bm bs).2 ≤ bs := by
              rw [← hcon]
              exact hle
            exact hpb (hbm.trans (le_antisymm IH.2.1 hble))
          have hdec2 : decide (s m = (chooseLoop s rest bm bs).2) = false := by
            simp [hpm]
          rw [List.find?_cons, hdec]
          rw [List.find?_cons, hdec2]
          exact hf

/-- C5: for every board, player, depth limit, and legal-move list, the move
and score produced by the alpha-beta-pruned `get_move` equal those of the
exhaustive unpruned minimax over the same position, depth limit, and move
order; and the chosen move is the first move of the list attaining the
maximal score. -/
theorem alpha_beta_equals_unpruned_minimax :
    ∀ (size : ℕ) (me : ℤ) (maxDepth : Option ℕ) (b : Board)
      (moves : List (ℤ × ℤ)),
      minimaxGetMoveCore size me maxDepth b moves
          = unprunedGetMoveCore size me maxDepth b moves ∧
        ∀ (bm : ℤ × ℤ) (bs : EInt),
          minimaxGetMoveCore size me maxDepth b moves = Except.ok (bm, bs) →
          moves.find? (fun m => decide (mmScore size me maxDepth b m = bs))
            = some bm := by
  intro size me maxDepth b moves
  have hsc : ∀ m : ℤ × ℤ,
      abScore size me maxDepth b m = mmScore size me maxDepth b m := by
    intro m
    exact abSearch_eq_mmSearch size (min 5 size) me
      (effectiveDepthLimit maxDepth size) (size * size) (place b m.1 m.2 me) 0 false
  cases moves with
  | nil =>
    constructor
    · rfl
    · intro bm bs h
      exact absurd h (by simp [minimaxGetMoveCore])
  | cons m0 rest =>
    have hcongr : chooseLoop (abScore size me maxDepth b) (m0 :: rest) m0 .bot
        = chooseLoop (mmScore size me maxDepth b) (m0 :: rest) m0 .bot :=
      chooseLoop_congr _ _ (m0 :: rest) m0 .bot (fun m _ => hsc m)
    constructor
    · show Except.ok (chooseLoop (abScore size me maxDepth b) (m0 :: rest) m0 .bot)
        = Except.ok (chooseLoop (mmScore size me maxDepth b) (m0 :: rest) m0 .bot)
      rw [hcongr]
    · intro bm bs h
      have hpair : chooseLoop (mmScore size me maxDepth b) (m0 :: rest) m0 .bot
          = (bm, bs) := by
        rw [← hcongr]
        exact Except.ok.inj h
      rw [chooseLoop_head] at hpair
      have CL := chooseLoop_spec (mmScore size me maxDepth b) rest m0
        (mmScore size me maxDepth b m0) rfl
      rw [hpair] at CL
      exact CL.2.2.2

/-! Immediate-win selection (claim C4). -/

theorem place_cell_eq {b : Board} {r c v p e1 e2 : ℤ} (hvp : v ≠ p)
    (h : place b r c v e1 e2 = p) : b e1 e2 = p := by
  by_cases hc : e1 = r ∧ e2 = c
  · rw [place, if_pos hc] at h
    exact absurd h hvp
  · rwa [place_other _ _ _ _ _ _ hc] at h

theorem hasWon_place_of_ne (size Kp : ℕ) (b : Board) (r c v p : ℤ) (hvp : v ≠ p)
    (h : hasWon size Kp (place b r c v) p = true) : hasWon size Kp b p = true := by
  simp only [hasWon, Bool.or_eq_true, List.any_eq_true, List.all_eq_true,
    decide_eq_true_eq] at h ⊢
  rcases h with ((⟨i, hi, j, hj, hall⟩ | ⟨i, hi, j, hj, hall⟩) |
    ⟨i, hi, j, hj, hall⟩) | ⟨i, hi, j, hj, hall⟩
  · exact Or.inl (Or.inl (Or.inl
      ⟨i, hi, j, hj, fun k hk => place_cell_eq hvp (hall k hk)⟩))
  · exact Or.inl (Or.inl (Or.inr
      ⟨i, hi, j, hj, fun k hk => place_cell_eq hvp (hall k hk)⟩))
  · exact Or.inl (Or.inr
      ⟨i, hi, j, hj, fun k hk => place_cell_eq hvp (hall k hk)⟩)
  · exact Or.inr ⟨i, hi, j, hj, fun k hk => place_cell_eq hvp (hall k hk)⟩

theorem checkWinner_eq_me {size Kp : ℕ} {b : Board} {me : ℤ}
    (hme : me = -1 ∨ me = 1) (h : checkWinner size Kp b = some me) :
    hasWon size Kp b me = true := by
  rw [checkWinner] at h
  split_ifs at h with h1 h2 h3
  case pos => 
    rw [Option.some.inj h] at h1
    exact h1
  all_goals first
  | (rw [Option.some.inj h] at h2; exact h2)
  | (rcases hme with hm | hm <;> rw [hm] at h <;> simp at h)
  | exact absurd h (by simp)

theorem checkWinner_place_me {size Kp : ℕ} {b : Board} {r c me : ℤ}
    (hme : me = -1 ∨ me = 1)
    (hop : hasWon size Kp b (-me) = false)
    (hwin : hasWon size Kp (place b r c me) me = true) :
    checkWinner size Kp (place b r c me) = some me := by
  rcases hme with h | h <;> subst h
  · rw [checkWinner, if_pos hwin]
  · have hno : hasWon size Kp (place b r c 1) (-1) = false := by
      by_contra hcon
      rw [Bool.not_eq_false] at hcon
      have hb := hasWon_place_of_ne size Kp b r c 1 (-1) (by norm_num) hcon
      have hop1 : hasWon size Kp b (-1) = false := by
        have e : -(1 : ℤ) = -1 := by norm_num
        rwa [e] at hop
      rw [hb] at hop1
      exact absurd hop1 (by simp)
    rw [checkWinner, if_neg (by simp [hno]), if_pos hwin]

theorem foldl_max_le_of (v : ℤ × ℤ → EInt) (M : EInt) :
    ∀ (ms : List (ℤ × ℤ)) (a : EInt), a ≤ M → (∀ m ∈ ms, v m ≤ M) →
      ms.foldl (fun x m => max x (v m)) a ≤ M := by
  intro ms
  induction ms with
  | nil => intro a ha _; exact ha
  | cons m rest ih =>
    intro a ha h
    exact ih (max a (v m)) (max_le ha (h m (List.mem_cons_self _ _)))
      (fun m' hm' => h m' (List.mem_cons_of_mem _ hm'))

theorem foldl_min_le_of (v : ℤ × ℤ → EInt) (M : EInt) :
    ∀ (ms : List (ℤ × ℤ)) (a : EInt), (∃ m ∈ ms, v m ≤ M) →
      ms.foldl (fun x m => min x (v m)) a ≤ M := by
  intro ms
  induction ms with
  | nil =>
    rintro a ⟨m, hm, _⟩
    exact absurd hm (List.not_mem_nil _)
  | cons m rest ih =>
    rintro a ⟨m', hm', hv⟩
    rcases List.mem_cons.mp hm' with h | h
    · subst h
      calc rest.foldl (fun x m => min x (v m)) (min a (v m'))
          ≤ min a (v m') := foldl_min_le v rest _
        _ ≤ v m' := min_le_right _ _
        _ ≤ M := hv
    · exact ih (min a (v m)) ⟨m', h, hv⟩

theorem mmSearch_winner_eq (size Kp : ℕ) (me : ℤ) (limit : Option ℕ) (fuel : ℕ)
    (b : Board) (depth : ℕ) (isMax : Bool) (w : ℤ)
    (hw : checkWinner size Kp b = some w) :
    mmSearch size Kp me limit (fuel + 1) b depth isMax =
      if w = me then EInt.I (1000 - (depth : ℤ))
      else if w = -me then EInt.I (-1000 + (depth : ℤ))
      else EInt.I 0 := by
  rw [mmSearch, hw]

theorem mmSearch_none_eq (size Kp : ℕ) (me : ℤ) (limit : Option ℕ) (fuel : ℕ)
    (b : Board) (depth : ℕ) (isMax : Bool)
    (hw : checkWinner size Kp b = none) :
    mmSearch size Kp me limit (fuel + 1) b depth isMax =
      if depthReached depth limit then EInt.I (evaluatePosition size Kp b me)
      else if validMoves size b = [] then EInt.I 0
      else if isMax then
        (validMoves size b).foldl (fun a m =>
          max a (mmSearch size Kp me limit fuel (place b m.1 m.2 me)
            (depth + 1) false)) .bot
      else
        (validMoves size b).foldl (fun a m =>
          min a (mmSearch size Kp me limit fuel (place b m.1 m.2 (-me))
            (depth + 1) true)) .top := by
  rw [mmSearch, hw]

/-- Upper bound on every unlimited-depth minimax value: no position scores
above `1000 - depth` when the recursion never runs out of fuel nor hits the
1000-point crossover. -/
theorem mmSearch_le_of_unlimited (size Kp : ℕ) (me : ℤ) (hme : me ≠ 0) :
    ∀ (fuel : ℕ) (b : Board) (depth : ℕ) (isMax : Bool),
      emptyCount size b < fuel →
      depth + emptyCount size b ≤ 1000 →
      mmSearch size Kp me none fuel b depth isMax
        ≤ EInt.I (1000 - (depth : ℤ)) := by
  intro fuel
  induction fuel with
  | zero =>
    intro b depth isMax h _
    exact absurd h (Nat.not_lt_zero _)
  | succ fuel ih =>
    intro b depth isMax hfuel hdepth
    cases hw : checkWinner size Kp b with
    | some w =>
      rw [mmSearch_winner_eq size Kp me none fuel b depth isMax w hw]
      split_ifs with h1 h2
      · exact le_refl _
      · rw [EInt.I_le_I]
        omega
      · rw [EInt.I_le_I]
        omega
    | none =>
      rw [mmSearch_none_eq size Kp me none fuel b depth isMax hw]
      split_ifs with h1 h2
      · exact absurd h1 (by simp [depthReached])
      · rw [EInt.I_le_I]
        omega
      · -- maximizing node
        have hchild : ∀ m ∈ validMoves size b,
            mmSearch size Kp me none fuel (place b m.1 m.2 me) (depth + 1) false
              ≤ EInt.I (1000 - (depth : ℤ)) := by
          intro m hm
          have hdec := emptyCount_place hm hme
          have hb := ih (place b m.1 m.2 me) (depth + 1) false (by omega) (by omega)
          refine le_trans hb ?_
          rw [EInt.I_le_I]
          push_cast
          omega
        exact foldl_max_le_of _ _ (validMoves size b) EInt.bot
          (EInt.bot_le' _) hchild
      · -- minimizing node
        have hne : -me ≠ 0 := by
          intro hcon
          apply hme
          omega
        have hnonnil : validMoves size b ≠ [] := h2
        obtain ⟨m0, rest, hms⟩ := List.exists_cons_of_ne_nil hnonnil
        have hchild : ∀ m ∈ validMoves size b,
            mmSearch size Kp me none fuel (place b m.1 m.2 (-me)) (depth + 1) true
              ≤ EInt.I (1000 - (depth : ℤ)) := by
          intro m hm
          have hdec := emptyCount_place hm hne
          have hb := ih (place b m.1 m.2 (-me)) (depth + 1) true (by omega) (by omega)
          refine le_trans hb ?_
          rw [EInt.I_le_I]
          push_cast
          omega
        apply foldl_min_le_of _ _ (validMoves size b) EInt.top
        exact ⟨m0, by rw [hms]; exact List.mem_cons_self _ _,
          hchild m0 (by rw [hms]; exact List.mem_cons_self _ _)⟩

/-- An immediately winning move scores exactly 1000 at the root. -/
theorem mmScore_winning_eq (size Kp : ℕ) (me : ℤ) (b : Board) (w : ℤ × ℤ)
    (hme : me = -1 ∨ me = 1) (hsz : 1 ≤ size)
    (hop : hasWon size Kp b (-me) = false)
    (hwin : hasWon size Kp (place b w.1 w.2 me) me = true) :
    mmSearch size Kp me none (size * size) (place b w.1 w.2 me) 0 false
      = EInt.I 1000 := by
  have hpos : 1 ≤ size * size := Nat.mul_le_mul hsz hsz
  obtain ⟨n, hn⟩ : ∃ n, size * size = n + 1 := ⟨size * size - 1, by omega⟩
  have hcw : checkWinner size Kp (place b w.1 w.2 me) = some me :=
    checkWinner_place_me hme hop hwin
  rw [hn, mmSearch_winner_eq size Kp me none n (place b w.1 w.2 me) 0 false me hcw]
  simp

/-- A root move that does not complete a `Kp`-run for the player scores
strictly below 1000. -/
theorem mmScore_nonwinning_lt (size Kp : ℕ) (me : ℤ) (b : Board) (m : ℤ × ℤ)
    (hme : me = -1 ∨ me = 1)
    (hmem : m ∈ validMoves size b)
    (hcount : emptyCount size b ≤ 1000)
    (hnw : hasWon size Kp (place b m.1 m.2 me) me = false) :
    mmSearch size Kp me none (size * size) (place b m.1 m.2 me) 0 false
      < EInt.I 1000 := by
  have hme0 : me ≠ 0 := by rcases hme with h | h <;> omega
  have hone : 1 ≤ emptyCount size b := by
    have := List.length_pos.mpr (List.ne_nil_of_mem hmem)
    exact this
  have hsize : emptyCount size b ≤ size * size := emptyCount_le size b
  have hdec := emptyCount_place hmem hme0
  obtain ⟨n, hn⟩ : ∃ n, size * size = n + 1 := ⟨size * size - 1, by omega⟩
  rw [hn]
  cases hw : checkWinner size Kp (place b m.1 m.2 me) with
  | some w =>
    rw [mmSearch_winner_eq size Kp me none n (place b m.1 m.2 me) 0 false w hw]
    split_ifs with h1 h2
    · rw [h1] at hw
      rw [checkWinner_eq_me hme hw] at hnw
      exact absurd hnw (by simp)
    · rw [EInt.I_lt_I]
      omega
    · rw [EInt.I_lt_I]
      omega
  | none =>
    rw [mmSearch_none_eq size Kp me none n (place b m.1 m.2 me) 0 false hw]
    split_ifs with h1 h2 h3
    · exact absurd h1 (by simp [depthReached])
    · rw [EInt.I_lt_I]
      omega
    · exact absurd h3 (by simp)
    · -- opponent's reply node is nonempty: bound every reply by 999
      have hnme : -me ≠ 0 := by
        intro hcon
        apply hme0
        omega
      obtain ⟨m0, rest, hms⟩ := List.exists_cons_of_ne_nil h2
      have hchild : mmSearch size Kp me none n
          (place (place b m.1 m.2 me) m0.1 m0.2 (-me)) 1 true ≤ EInt.I 999 := by
        have hm0 : m0 ∈ validMoves size (place b m.1 m.2 me) := by
          rw [hms]
          exact List.mem_cons_self _ _
        have hdec2 := emptyCount_place hm0 hnme
        have hb1 : emptyCount size
            (place (place b m.1 m.2 me) m0.1 m0.2 (-me)) < n := by
          omega
        have hb2 : 1 + emptyCount size
            (place (place b m.1 m.2 me) m0.1 m0.2 (-me)) ≤ 1000 := by
          omega
        have hb := mmSearch_le_of_unlimited size Kp me hme0 n
          (place (place b m.1 m.2 me) m0.1 m0.2 (-me)) 1 true hb1 hb2
        refine le_trans hb ?_
        rw [EInt.I_le_I]
        omega
      have hfold : (validMoves size (place b m.1 m.2 me)).foldl
          (fun a m' => min a (mmSearch size Kp me none n
            (place (place b m.1 m.2 me) m'.1 m'.2 (-me)) (0 + 1) true)) EInt.top
            ≤ EInt.I 999 := by
        apply foldl_min_le_of
        exact ⟨m0, by rw [hms]; exact List.mem_cons_self _ _, hchild⟩
      have h999 : EInt.I 999 < EInt.I 1000 := by
        rw [EInt.I_lt_I]
        omega
      exact lt_of_le_of_lt hfold h999

/-- C4 (amended): with no depth limit on a board of size at most 3 (so the
search is exhaustive), in a live position (no completed run for either side)
where some legal move completes a run of the assumed win length
`min(5, size)` for the player, `get_move` returns such a move. -/
theorem minimax_selects_assumed_win (size : ℕ) (me : ℤ) (b : Board)
    (moves : List (ℤ × ℤ))
    (hsz : 1 ≤ size) (h3 : size ≤ 3) (hme : me = -1 ∨ me = 1)
    (hnw1 : hasWon size (min 5 size) b (-1) = false)
    (hnw2 : hasWon size (min 5 size) b 1 = false)
    (hmoves : moves = validMoves size b)
    (hwin : ∃ w ∈ moves,
      hasWon size (min 5 size) (place b w.1 w.2 me) me = true) :
    ∃ bm : ℤ × ℤ, minimaxGetMove size me none b moves = Except.ok bm ∧
      hasWon size (min 5 size) (place b bm.1 bm.2 me) me = true := by
  obtain ⟨w, hwmem, hwwin⟩ := hwin
  have hlimit : effectiveDepthLimit none size = none := by
    simp [effectiveDepthLimit, h3]
  have hcount : emptyCount size b ≤ 1000 := by
    have h1 := emptyCount_le size b
    have h2 : size * size ≤ 9 := Nat.mul_le_mul h3 h3
    omega
  have hop : hasWon size (min 5 size) b (-me) = false := by
    rcases hme with h | h <;> subst h
    · have e : -(-1 : ℤ) = 1 := by norm_num
      rw [e]
      exact hnw2
    · have e : -(1 : ℤ) = -1 := by norm_num
      rw [e]
      exact hnw1
  have hs : ∀ m : ℤ × ℤ, abScore size me none b m
      = mmSearch size (min 5 size) me none (size * size)
          (place b m.1 m.2 me) 0 false := by
    intro m
    rw [abScore, hlimit]
    exact abSearch_eq_mmSearch size (min 5 size) me none (size * size)
      (place b m.1 m.2 me) 0 false
  cases moves with
  | nil => exact absurd hwmem (List.not_mem_nil _)
  | cons m0 rest =>
    have hvm : m0 :: rest = validMoves size b := hmoves
    have hchoose : chooseLoop (abScore size me none b) (m0 :: rest) m0 .bot
        = chooseLoop (fun m => mmSearch size (min 5 size) me none (size * size)
            (place b m.1 m.2 me) 0 false) (m0 :: rest) m0 .bot :=
      chooseLoop_congr _ _ (m0 :: rest) m0 .bot (fun m _ => hs m)
    have CL := chooseLoop_spec (fun m => mmSearch size (min 5 size) me none
        (size * size) (place b m.1 m.2 me) 0 false) rest m0
      (mmSearch size (min 5 size) me none (size * size)
        (place b m0.1 m0.2 me) 0 false) rfl
    rw [← chooseLoop_head] at CL
    set r := chooseLoop (fun m => mmSearch size (min 5 size) me none (size * size)
      (place b m.1 m.2 me) 0 false) (m0 :: rest) m0 .bot with hr
    have hmem_r : r.1 ∈ m0 :: rest := List.mem_of_find?_eq_some CL.2.2.2
    have hmemv : r.1 ∈ validMoves size b := by
      rw [← hvm]
      exact hmem_r
    have hwsc : mmSearch size (min 5 size) me none (size * size)
        (place b w.1 w.2 me) 0 false = EInt.I 1000 :=
      mmScore_winning_eq size (min 5 size) me b w hme hsz hop hwwin
    have hge : EInt.I 1000 ≤ r.2 := by
      rw [← hwsc]
      rcases List.mem_cons.mp hwmem with h | h
      · rw [h]
        exact CL.2.1
      · exact CL.2.2.1 w h
    have hwin_r : hasWon size (min 5 size) (place b r.1.1 r.1.2 me) me = true := by
      by_contra hcon
      rw [Bool.not_eq_true] at hcon
      have hlt := mmScore_nonwinning_lt size (min 5 size) me b r.1 hme hmemv
        hcount hcon
      have hc1 : mmSearch size (min 5 size) me none (size * size)
          (place b r.1.1 r.1.2 me) 0 false = r.2 := CL.1
      rw [hc1] at hlt
      exact absurd (lt_of_le_of_lt hge hlt) (lt_irrefl _)
    refine ⟨r.1, ?_, hwin_r⟩
    show Except.ok (chooseLoop (abScore size me none b) (m0 :: rest) m0 .bot).1
      = Except.ok r.1
    rw [hchoose]

/-- A 3×3 board with X on (0,0) and (0,1), O on (1,0) and (1,1): X to move
completes the top row by playing (0,2). -/
def bC4w : Board := boardOfRows [[-1, -1, 0], [1, 1, 0], [0, 0, 0]]

/-- Witness for C4 (amended): on the concrete 3×3 position the exhaustive
player returns a move completing its assumed-length run. -/
theorem minimax_selects_assumed_win_witness :
    ∃ bm : ℤ × ℤ,
      minimaxGetMove 3 (-1) none bC4w (validMoves 3 bC4w) = Except.ok bm ∧
        hasWon 3 (min 5 3) (place bC4w bm.1 bm.2 (-1)) (-1) = true :=
  minimax_selects_assumed_win 3 (-1) bC4w (validMoves 3 bC4w)
    (by norm_num) (by norm_num) (Or.inl rfl)
    (by decide) (by decide) rfl
    ⟨(0, 2), by decide, by decide⟩

/-- A 4×4 position (game configured with win_length 3, X to move): every
length-4 window already holds both colours, so the search — which assumes
win length `min(5, 4) = 4` — sees only draws plus O's four-in-a-column
threat in column 0.  X's moves (0,2), (2,3) and (3,2) each complete a
3-in-a-row and win the configured game at once; (2,0) does not. -/
def bC4 : Board :=
  boardOfRows [[1, -1, 0, -1], [1, -1, -1, 1], [0, 1, -1, 0], [1, -1, 0, 1]]

/-- Counterexample to C4 as stated: the game's configured win length is 3,
the position is live (no occupied cell completes a 3-run), X has the
immediately winning move (0,2), yet `get_move` returns (2,0), which does not
win the game — `MinimaxPlayer.get_move` overwrites `win_length` with
`min(5, board_size) = 4` and never sees the 3-in-a-row win. -/
theorem minimax_misses_configured_win :
    (GameState.init 4 (some 3)).winLength = 3 ∧
    validMoves 4 bC4 = [(0, 2), (2, 0), (2, 3), (3, 2)] ∧
    ((allCells 4).all fun rc =>
      decide (bC4 rc.1 rc.2 = 0) || !checkWin 4 3 bC4 rc.1 rc.2) = true ∧
    checkWin 4 3 (place bC4 0 2 (-1)) 0 2 = true ∧
    minimaxGetMove 4 (-1) none bC4 (validMoves 4 bC4) = Except.ok (2, 0) ∧
    checkWin 4 3 (place bC4 2 0 (-1)) 2 0 = false :=
  ⟨by decide, by decide, by decide, by decide, by rfl, by decide⟩

end TTT
